import Mathlib

/-!
Shallow embedding of the digit-state dashboard core in `src/static/dashboard.js`
(class `Dashboard`): the digit-state reconciliation engine (`updateJobStates`,
`updateResultState`, `getAllHexDigits`), the exact hex-fraction to decimal
conversion (`hexFractionToDecimal`), the reconnect backoff state
(`connect`/`scheduleReconnect`) and the bounded result history (`addResult`).

Inbound message fields are JSON values; `parseInt` on a defined but
non-numeric value yields JavaScript `NaN`, which then propagates through
`+`, `Math.max` and is a legal `Map`/`Set` key (NaN is SameValueZero-equal
to itself).  Numbers that can reach the digit arithmetic are therefore
modelled as `JsNum`: an integer or NaN.
-/

/-- A JavaScript number as it appears in the digit bookkeeping: an integer
or `NaN`.  (The dashboard only ever produces integers or NaN here: every
number it stores has passed through `parseInt`.) -/
inductive JsNum where
  | nan : JsNum
  | int : Int → JsNum
deriving DecidableEq, Repr

/-- JS `+` on digit indices: NaN is absorbing. -/
def jsAdd : JsNum → JsNum → JsNum
  | JsNum.int a, JsNum.int b => JsNum.int (a + b)
  | _, _ => JsNum.nan

/-- JS `Math.max` on two values: NaN is absorbing. -/
def jsMax : JsNum → JsNum → JsNum
  | JsNum.int a, JsNum.int b => JsNum.int (max a b)
  | _, _ => JsNum.nan

/-- A JSON scalar as it can appear in a `payload.start` / `payload.count`
field of an inbound message. -/
inductive JsVal where
  | num : Int → JsVal
  | str : String → JsVal
  | null : JsVal
  | bool : Bool → JsVal
deriving DecidableEq, Repr

/-- Value of a hex digit character, case-insensitive, as accepted by
JS `parseInt(c, 16)`. -/
def hexCharVal (c : Char) : Option Nat :=
  let n := c.toNat
  if 48 ≤ n ∧ n ≤ 57 then some (n - 48)
  else if 65 ≤ n ∧ n ≤ 70 then some (n - 55)
  else if 97 ≤ n ∧ n ≤ 102 then some (n - 87)
  else none

/-- Value of a decimal digit character. -/
def decCharVal (c : Char) : Option Nat :=
  if 48 ≤ c.toNat ∧ c.toNat ≤ 57 then some (c.toNat - 48) else none

/-- Longest prefix of digit values accepted by `valOf`. -/
def takeDigitVals (valOf : Char → Option Nat) : List Char → List Nat
  | [] => []
  | c :: rest =>
    match valOf c with
    | some v => v :: takeDigitVals valOf rest
    | none => []

/-- JS `parseInt` on a string (radix unspecified): skip leading whitespace,
optional sign, `0x`/`0X` switches to hex, parse the longest digit prefix;
`NaN` when no digit is consumed. -/
def parseIntStr (s : String) : JsNum :=
  let l := s.data.dropWhile (fun c => c == ' ' || c == '\t' || c == '\n' || c == '\r')
  let signed : Bool × List Char :=
    match l with
    | '-' :: rest => (true, rest)
    | '+' :: rest => (false, rest)
    | _ => (false, l)
  let body : Nat × List Char × (Char → Option Nat) :=
    match signed.2 with
    | '0' :: 'x' :: rest => (16, rest, hexCharVal)
    | '0' :: 'X' :: rest => (16, rest, hexCharVal)
    | _ => (10, signed.2, decCharVal)
  let ds := takeDigitVals body.2.2 body.2.1
  if ds.length = 0 then JsNum.nan
  else
    let m : Nat := ds.foldl (fun acc v => acc * body.1 + v) 0
    JsNum.int (if signed.1 then -(m : Int) else (m : Int))

/-- JS `parseInt` applied to a JSON scalar (the value is coerced to a
string first: `parseInt(null)` and `parseInt(true/false)` are `NaN`). -/
def parseIntJs : JsVal → JsNum
  | JsVal.num n => JsNum.int n
  | JsVal.str s => parseIntStr s
  | JsVal.null => JsNum.nan
  | JsVal.bool _ => JsNum.nan

/-- The state tag stored in a `digitStates` entry
(`'queue' | 'inflight' | 'result'`; absence of an entry is the implicit
`empty` state). -/
inductive DigitState where
  | queue : DigitState
  | inflight : DigitState
  | result : DigitState
deriving DecidableEq, Repr

/-- One `digitStates` map entry: `{state, value}`; `value` is `null`
except for resolved digits. -/
structure DigitEntry where
  state : DigitState
  value : Option Char
deriving DecidableEq, Repr

/-- Whether an optional map entry is a resolved (`result`) entry. -/
def entryIsResult : Option DigitEntry → Bool
  | some e => decide (e.state = DigitState.result)
  | none => false

/-- The digit-state side of the `Dashboard`: the `digitStates` map
(keys are JS numbers, so NaN is a legal key) and `maxDigit`
(initially `-1`). -/
@[ext]
structure Table where
  states : JsNum → Option DigitEntry
  maxDigit : JsNum

/-- Fresh table, as built by the `Dashboard` constructor. -/
def initTable : Table := ⟨fun _ => none, JsNum.int (-1)⟩

/-- A `payload` object carried by a job wrapper in a `job_update`
message; `start`/`count` may be absent. -/
structure JobPayload where
  type : String
  start_ : Option JsVal
  count_ : Option JsVal
deriving DecidableEq, Repr

/-- A job wrapper; its `payload` may be absent. -/
structure Job where
  payload : Option JobPayload
deriving DecidableEq, Repr

/-- The digit indices `start + i`, `0 ≤ i < count`, covered by one job
(the collection loops of `updateJobStates`): recognized only when a
payload is present with `type === 'bbp_hex'` and defined `start`/`count`;
a NaN `count` makes the loop `i < count` run zero times, a NaN `start`
makes every produced index NaN. -/
def jobIndices (job : Job) : List JsNum :=
  match job.payload with
  | some p =>
    match p.start_, p.count_ with
    | some sv, some cv =>
      if p.type = "bbp_hex" then
        match parseIntJs cv with
        | JsNum.int c => (List.range c.toNat).map (fun i => jsAdd (parseIntJs sv) (JsNum.int i))
        | JsNum.nan => []
      else []
    | _, _ => []
  | none => []

/-- All indices contributed by a job list, in collection order. -/
def jobsIndices (jobs : List Job) : List JsNum := jobs.flatMap jobIndices

/-- Step 1 of `updateJobStates`: delete every `queue`/`inflight` entry
whose key is in neither new set; `result` entries are never touched.
Each map iteration examines one key independently, so the loop is exactly
this pointwise map. -/
def pruneStale (qs is_ : List JsNum) (st : JsNum → Option DigitEntry) :
    JsNum → Option DigitEntry := fun k =>
  match st k with
  | some e =>
    if (e.state = DigitState.queue ∨ e.state = DigitState.inflight) ∧ ¬ k ∈ qs ∧ ¬ k ∈ is_
    then none else some e
  | none => none

/-- Step 2 of `updateJobStates`: for each key of the queued set that is not
resolved and not also inflight, store a `queue` entry.  Each set element is
written once and the branch reads only that key, so the loop is pointwise. -/
def setQueue (qs is_ : List JsNum) (st : JsNum → Option DigitEntry) :
    JsNum → Option DigitEntry := fun k =>
  if k ∈ qs ∧ entryIsResult (st k) = false ∧ ¬ k ∈ is_
  then some ⟨DigitState.queue, none⟩ else st k

/-- Step 3 of `updateJobStates`: for each key of the inflight set that is
not resolved, store an `inflight` entry. -/
def setInflight (is_ : List JsNum) (st : JsNum → Option DigitEntry) :
    JsNum → Option DigitEntry := fun k =>
  if k ∈ is_ ∧ entryIsResult (st k) = false
  then some ⟨DigitState.inflight, none⟩ else st k

/-- Model of `updateJobStates(queueJobs, inflightJobs)`: expand both job lists into
index collections (updating `maxDigit` per collected index, duplicates
included, exactly as the JS loops do), prune stale pending entries, then
assert the queued and inflight sets. -/
def updateJobStates (queueJobs inflightJobs : List Job) (t : Table) : Table :=
  let qDigits := jobsIndices queueJobs
  let iDigits := jobsIndices inflightJobs
  ⟨setInflight iDigits (setQueue qDigits iDigits (pruneStale qDigits iDigits t.states)),
   (qDigits ++ iDigits).foldl jsMax t.maxDigit⟩

/-- The `result` object of a `result` message (`data.result`); any field
may be absent. -/
structure ResultPayload where
  hex : Option String
  start_ : Option JsVal
  count_ : Option JsVal
deriving DecidableEq, Repr

/-- One iteration of the `updateResultState` write loop: store a `result`
entry with value `hex[i]` at key `start + i` and raise `maxDigit`. -/
def writeResultDigit (h : String) (s : JsNum) (acc : Table) (i : Nat) : Table :=
  ⟨fun k => if k = jsAdd s (JsNum.int i)
            then some ⟨DigitState.result, some (h.data.getD i ' ')⟩
            else acc.states k,
   jsMax acc.maxDigit (jsAdd s (JsNum.int i))⟩

/-- Model of `updateResultState(result)`: when `result`, `result.hex` (truthy, so
non-empty), `result.start` and `result.count` are all present, write
`result` entries for `start + i`, `0 ≤ i < min(count, hex.length)`, and
fold `maxDigit` over the written keys; otherwise do nothing.  (A NaN
`count` runs the loop zero times; the loop bound never exceeds
`hex.length`, so `hex[i]` is always a real character.) -/
def updateResultState (r? : Option ResultPayload) (t : Table) : Table :=
  match r? with
  | some r =>
    match r.hex, r.start_, r.count_ with
    | some h, some sv, some cv =>
      if h = "" then t
      else
        let n : Nat :=
          match parseIntJs cv with
          | JsNum.int c => min c.toNat h.length
          | JsNum.nan => 0
        (List.range n).foldl (writeResultDigit h (parseIntJs sv)) t
    | _, _, _ => t
  | none => t

/-- The unbroken run of resolved digit values starting at index `i`, with
at most `fuel` steps: `getAllHexDigits` first copies each resolved value of
`0..maxDigit` into a sparse array, then concatenates from index 0 up to the
first missing slot; the composition collects values while consecutive
indices hold `result` entries with a (truthy, hence present) value. -/
def collectRun (st : JsNum → Option DigitEntry) : Nat → Nat → List Char
  | 0, _ => []
  | fuel + 1, i =>
    match st (JsNum.int i) with
    | some e =>
      if e.state = DigitState.result then
        match e.value with
        | some c => c :: collectRun st fuel (i + 1)
        | none => []
      else []
    | none => []

/-- Model of `getAllHexDigits()`: the contiguous resolved hex prefix as a string.
The scan runs over indices `0..maxDigit`, so it is empty when `maxDigit`
is negative or NaN. -/
def getAllHexDigits (t : Table) : String :=
  match t.maxDigit with
  | JsNum.int m => if 0 ≤ m then String.mk (collectRun t.states (m.toNat + 1) 0) else ""
  | JsNum.nan => ""

/-- The numerator loop of `hexFractionToDecimal`: fold the hex digits into
a big integer, `n = n*16 + digitValue`; a character that is not a hex digit
makes `parseInt(c, 16)` NaN and `BigInt(NaN)` throw, modelled as `none`.
(The source upper-cases the string first; `parseInt(·, 16)` is
case-insensitive, so folding with the case-insensitive `hexCharVal`
computes the same number.) -/
def hexAccum (acc : Option Nat) (c : Char) : Option Nat :=
  match acc, hexCharVal c with
  | some n, some v => some (n * 16 + v)
  | _, _ => none

def hexStrVal (s : String) : Option Nat :=
  s.data.foldl hexAccum (some 0)

/-- The digit-extraction loop of `hexFractionToDecimal`: repeatedly
multiply the numerator by 10, emit the quotient by `den`, keep the
remainder, and stop after `fuel` digits or as soon as the remainder
is exactly zero (checked after appending the digit). -/
def extractDigits (den : Nat) : Nat → Nat → List Nat
  | _, 0 => []
  | n, fuel + 1 =>
    let n10 := n * 10
    let d := n10 / den
    let r := n10 % den
    if r = 0 then [d] else d :: extractDigits den r fuel

/-- Model of `hexFractionToDecimal(hexString, maxDigits)`: `"3."` for an empty
input, otherwise the exact decimal digits of `hexString / 16^length`,
at most `min(length, maxDigits)` of them; `none` models the `BigInt`
exception raised on a non-hex character. -/
def hexFractionToDecimal (hexString : String) (maxDigits : Nat) : Option String :=
  if hexString.length = 0 then some "3."
  else
    match hexStrVal hexString with
    | none => none
    | some numerator =>
      let denominator := 16 ^ hexString.length
      let ds := extractDigits denominator numerator (min hexString.length maxDigits)
      some (ds.foldl (fun acc d => acc ++ toString d) "3.")

/-- The reconnection state owned by the `Dashboard`: just the current
backoff delay (`reconnectDelay`). -/
structure ConnState where
  reconnectDelay : Nat
deriving DecidableEq, Repr

/-- The `maxReconnectDelay` constant from the constructor. -/
def maxReconnectDelay : Nat := 30000

/-- Fresh session: `reconnectDelay = 1000`. -/
def initConn : ConnState := ⟨1000⟩

/-- The `onopen` handler resets the delay to 1000. -/
def onOpen (_ : ConnState) : ConnState := ⟨1000⟩

/-- Model of `scheduleReconnect` plus the timer body for a failed attempt: the
attempt is scheduled after the current `reconnectDelay`, and when the timer
fires the delay is doubled, capped at `maxReconnectDelay`. -/
def scheduleReconnect (s : ConnState) : Nat × ConnState :=
  (s.reconnectDelay, ⟨min (s.reconnectDelay * 2) maxReconnectDelay⟩)

/-- Delays of `n` consecutive failed reconnect attempts from state `s`. -/
def failDelays (s : ConnState) : Nat → List Nat
  | 0 => []
  | n + 1 => (scheduleReconnect s).1 :: failDelays (scheduleReconnect s).2 n

/-- One entry of `this.results`: `{job_id, result, timestamp}`. -/
structure ResultRecord where
  job_id : Option JsVal
  result : Option ResultPayload
  timestamp : Int
deriving DecidableEq, Repr

/-- The `maxResults` constant from the constructor. -/
def maxResults : Nat := 50

/-- The history part of `addResult`: `unshift` the record, then truncate
with `slice(0, maxResults)` when the length exceeds `maxResults`. -/
def addResultHistory (entry : ResultRecord) (results : List ResultRecord) :
    List ResultRecord :=
  let r := entry :: results
  if r.length > maxResults then r.take maxResults else r

/-- An inbound `result` message (`data`): any field may be absent. -/
structure ResultMsg where
  job_id : Option JsVal
  result : Option ResultPayload
  timestamp : Option Int
deriving DecidableEq, Repr

/-- The dashboard state touched by a `result` message. -/
structure DashState where
  results : List ResultRecord
  table : Table

/-- Model of `addResult(data)` (with `now` the current clock value used by the
`data.timestamp || Math.floor(Date.now()/1000)` default, where a 0
timestamp is falsy): prepend the bounded history record, then run
`updateResultState(data.result)` on the digit table. -/
def addResult (data : ResultMsg) (now : Int) (s : DashState) : DashState :=
  let ts : Int :=
    match data.timestamp with
    | some v => if v = 0 then now else v
    | none => now
  ⟨addResultHistory ⟨data.job_id, data.result, ts⟩ s.results,
   updateResultState data.result s.table⟩


/-! ## Helper lemmas -/

lemma jsMax_comm (a b : JsNum) : jsMax a b = jsMax b a := by
  cases a <;> cases b <;> simp [jsMax, max_comm]

lemma jsMax_assoc (a b c : JsNum) : jsMax (jsMax a b) c = jsMax a (jsMax b c) := by
  cases a <;> cases b <;> cases c <;> simp [jsMax, max_assoc]

lemma jsMax_self (a : JsNum) : jsMax a a = a := by
  cases a <;> simp [jsMax]

lemma foldl_jsMax_absorb (l : List JsNum) :
    ∀ d x, jsMax x d = d → jsMax x (l.foldl jsMax d) = l.foldl jsMax d := by
  induction l with
  | nil => intro d x hx; simpa using hx
  | cons a l ih =>
    intro d x hx
    simp only [List.foldl_cons]
    exact ih (jsMax d a) x (by rw [← jsMax_assoc, hx])

lemma foldl_jsMax_fix (l : List JsNum) :
    ∀ d, (∀ a ∈ l, jsMax a d = d) → l.foldl jsMax d = d := by
  induction l with
  | nil => intro d _; rfl
  | cons a l ih =>
    intro d hall
    simp only [List.foldl_cons]
    have ha : jsMax d a = d := by rw [jsMax_comm]; exact hall a (by simp)
    rw [ha]
    exact ih d (fun b hb => hall b (by simp [hb]))

lemma mem_foldl_jsMax (l : List JsNum) :
    ∀ d a, a ∈ l → jsMax a (l.foldl jsMax d) = l.foldl jsMax d := by
  induction l with
  | nil => intro d a ha; simp at ha
  | cons b l ih =>
    intro d a ha
    simp only [List.foldl_cons]
    rcases List.mem_cons.mp ha with rfl | ha
    · refine foldl_jsMax_absorb l (jsMax d a) a ?_
      rw [jsMax_comm d a, ← jsMax_assoc, jsMax_self]
    · exact ih (jsMax d b) a ha

lemma foldl_jsMax_idem (l : List JsNum) (d : JsNum) :
    l.foldl jsMax (l.foldl jsMax d) = l.foldl jsMax d :=
  foldl_jsMax_fix l _ (fun a ha => mem_foldl_jsMax l d a ha)

/-- Pointwise characterization of the table entries after one
`updateJobStates` call: a resolved entry is untouched; otherwise the
inflight set wins, then the queued set, and everything else is empty. -/
lemma updateJobStates_states (Q I : List Job) (t : Table) (k : JsNum) :
    (updateJobStates Q I t).states k =
      if entryIsResult (t.states k) = true then t.states k
      else if k ∈ jobsIndices I then some ⟨DigitState.inflight, none⟩
      else if k ∈ jobsIndices Q then some ⟨DigitState.queue, none⟩
      else none := by
  show setInflight _ (setQueue _ _ (pruneStale _ _ t.states)) k = _
  by_cases hq : k ∈ jobsIndices Q <;> by_cases hi : k ∈ jobsIndices I <;>
    rcases hst : t.states k with _ | ⟨s, v⟩ <;>
      [skip; rcases s with _ | _ | _; skip; rcases s with _ | _ | _;
       skip; rcases s with _ | _ | _; skip; rcases s with _ | _ | _] <;>
    simp [setInflight, setQueue, pruneStale, entryIsResult, hq, hi, hst]

/-- Value of `maxDigit` after one `updateJobStates` call. -/
lemma updateJobStates_maxDigit (Q I : List Job) (t : Table) :
    (updateJobStates Q I t).maxDigit =
      (jobsIndices Q ++ jobsIndices I).foldl jsMax t.maxDigit := rfl

/-- Claim C1 helper: one snapshot call preserves any resolved entry. -/
lemma updateJobStates_preserves_result (Q I : List Job) (t : Table) (i : JsNum)
    (e : DigitEntry) (hmem : t.states i = some e) (hres : e.state = DigitState.result) :
    (updateJobStates Q I t).states i = some e := by
  rw [updateJobStates_states]
  simp [entryIsResult, hmem, hres]

/-- Claim C1: once an index holds a `result` entry, neither one `updateJobStates`
call nor any sequence of them changes the entry (state or stored value). -/
theorem result_sticky (Q I : List Job) (t : Table) (i : JsNum) (e : DigitEntry)
    (hmem : t.states i = some e) (hres : e.state = DigitState.result) :
    (updateJobStates Q I t).states i = some e ∧
    ∀ calls : List (List Job × List Job),
      (calls.foldl (fun acc c => updateJobStates c.1 c.2 acc) t).states i = some e := by
  refine ⟨updateJobStates_preserves_result Q I t i e hmem hres, ?_⟩
  intro calls
  induction calls generalizing t with
  | nil => exact hmem
  | cons c calls ih =>
    exact ih (updateJobStates c.1 c.2 t)
      (updateJobStates_preserves_result c.1 c.2 t i e hmem hres)

/-- Job fixture used by the concrete witnesses: a well-formed `bbp_hex`
wrapper covering `[s, s+c)`. -/
def mkJob (s c : Int) : Job :=
  Job.mk (some (JobPayload.mk "bbp_hex" (some (JsVal.num s)) (some (JsVal.num c))))

/-- Table fixture used by the concrete witnesses: index 0 resolved to '7'. -/
def resolvedTable : Table :=
  Table.mk (fun k => if k = JsNum.int 0 then some ⟨DigitState.result, some '7'⟩ else none)
    (JsNum.int 0)

/-- Claim C1 witness at a concrete resolved table and concrete snapshot calls. -/
theorem result_sticky_witness :
    resolvedTable.states (JsNum.int 0) = some ⟨DigitState.result, some '7'⟩ ∧
    ((updateJobStates [mkJob 0 2] [mkJob 0 1] resolvedTable).states (JsNum.int 0) =
        some ⟨DigitState.result, some '7'⟩ ∧
      ∀ calls : List (List Job × List Job),
        (calls.foldl (fun acc c => updateJobStates c.1 c.2 acc) resolvedTable).states
          (JsNum.int 0) = some ⟨DigitState.result, some '7'⟩) :=
  ⟨by decide, result_sticky [mkJob 0 2] [mkJob 0 1] resolvedTable (JsNum.int 0)
    ⟨DigitState.result, some '7'⟩ (by decide) rfl⟩

/-- Claim C4: one `applyJobSnapshot` is idempotent: applying the same snapshot
twice leaves the whole table (entries and high-water mark) as after one
application. -/
theorem snapshot_idempotent (Q I : List Job) (t : Table) :
    updateJobStates Q I (updateJobStates Q I t) = updateJobStates Q I t := by
  have hinf : entryIsResult (some ⟨DigitState.inflight, none⟩) = false := rfl
  have hque : entryIsResult (some ⟨DigitState.queue, none⟩) = false := rfl
  have hnone : entryIsResult none = false := rfl
  apply Table.ext
  · funext k
    rw [updateJobStates_states Q I (updateJobStates Q I t) k,
        updateJobStates_states Q I t k]
    by_cases hr : entryIsResult (t.states k) = true <;>
      by_cases hi : k ∈ jobsIndices I <;>
        by_cases hq : k ∈ jobsIndices Q <;>
          simp [hr, hi, hq, hinf, hque, hnone]
  · rw [updateJobStates_maxDigit Q I (updateJobStates Q I t),
        updateJobStates_maxDigit Q I t]
    exact foldl_jsMax_idem _ _

/-- Claim C5: an index asserted by both the queued and the inflight set of one
snapshot, and not already resolved, ends the call in state `inflight`. -/
theorem inflight_priority (Q I : List Job) (t : Table) (i : JsNum)
    (hnr : entryIsResult (t.states i) = false)
    (hq : i ∈ jobsIndices Q) (hi : i ∈ jobsIndices I) :
    (updateJobStates Q I t).states i = some ⟨DigitState.inflight, none⟩ := by
  rw [updateJobStates_states]
  simp [hnr, hi]

/-- Claim C5 witness: index 1 is both queued (via a job covering 0-1) and
inflight (via a job covering 1) and becomes `inflight`. -/
theorem inflight_priority_witness :
    entryIsResult (initTable.states (JsNum.int 1)) = false ∧
    JsNum.int 1 ∈ jobsIndices [mkJob 0 2] ∧
    JsNum.int 1 ∈ jobsIndices [mkJob 1 1] ∧
    (updateJobStates [mkJob 0 2] [mkJob 1 1] initTable).states (JsNum.int 1) =
      some ⟨DigitState.inflight, none⟩ :=
  ⟨by decide, by decide, by decide,
    inflight_priority [mkJob 0 2] [mkJob 1 1] initTable (JsNum.int 1)
      (by decide) (by decide) (by decide)⟩

/-- Doubling a capped delay and capping again caps the doubled delay. -/
lemma min_double_pow (d k : Nat) :
    min (min (d * 2) 30000 * 2 ^ k) 30000 = min (d * 2 ^ (k + 1)) 30000 := by
  rcases le_or_lt (d * 2) 30000 with h | h
  · rw [min_eq_left h, pow_succ]
    ring_nf
  · rw [min_eq_right (le_of_lt h)]
    have h1 : (30000 : Nat) ≤ 30000 * 2 ^ k := Nat.le_mul_of_pos_right _ (Nat.pos_pow_of_pos k (by omega))
    have h2 : (30000 : Nat) ≤ d * 2 ^ (k + 1) := by
      calc (30000 : Nat) ≤ d * 2 := le_of_lt h
        _ ≤ d * 2 * 2 ^ k := Nat.le_mul_of_pos_right _ (Nat.pos_pow_of_pos k (by omega))
        _ = d * 2 ^ (k + 1) := by rw [pow_succ]; ring
    rw [min_eq_right h1, min_eq_right h2]

lemma failDelays_formula (n : Nat) :
    ∀ d : Nat, d ≤ 30000 →
      failDelays ⟨d⟩ n = (List.range n).map (fun k => min (d * 2 ^ k) 30000) := by
  induction n with
  | zero => intro d _; rfl
  | succ n ih =>
    intro d hd
    have step : failDelays ⟨d⟩ (n + 1) = d :: failDelays ⟨min (d * 2) 30000⟩ n := by
      simp [failDelays, scheduleReconnect, maxReconnectDelay]
    rw [step, ih (min (d * 2) 30000) (min_le_right _ _),
        List.range_succ_eq_map, List.map_cons, List.map_map]
    congr 1
    · simp only [pow_zero, mul_one]
      omega
    · congr 1
      funext k
      simp only [Function.comp_apply]
      exact min_double_pow d k

/-- Claim C7: from a fresh session, the n-th consecutive failed reconnect attempt
(1-indexed) is scheduled after `min (1000 * 2^(n-1)) 30000`; in particular
the first three failures are delayed 1000, 2000 and 4000; and after a
successful open the next failures restart at 1000. -/
theorem reconnect_backoff :
    (∀ n : Nat, failDelays initConn n =
      (List.range n).map (fun k => min (1000 * 2 ^ k) 30000)) ∧
    failDelays initConn 3 = [1000, 2000, 4000] ∧
    (∀ (s : ConnState) (n : Nat), failDelays (onOpen s) n =
      (List.range n).map (fun k => min (1000 * 2 ^ k) 30000)) := by
  refine ⟨fun n => failDelays_formula n 1000 (by omega), ?_, fun s n => failDelays_formula n 1000 (by omega)⟩
  show failDelays ⟨1000⟩ 3 = [1000, 2000, 4000]
  rw [failDelays_formula 3 1000 (by omega)]
  rfl

/-! ## Result history (C8, C10) -/

lemma addResultHistory_eq_take (e : ResultRecord) (l : List ResultRecord) :
    addResultHistory e l = (e :: l).take 50 := by
  unfold addResultHistory maxResults
  by_cases h : (e :: l).length > 50
  · simp [h]
  · rw [if_neg h, List.take_of_length_le (by omega)]

/-- Folding `addResult` record insertions over a call sequence
(first call first). -/
def insertAll (es : List ResultRecord) (l : List ResultRecord) : List ResultRecord :=
  es.foldl (fun acc e => addResultHistory e acc) l

lemma take_fifty_append (A B : List ResultRecord) :
    (A ++ B.take 50).take 50 = (A ++ B).take 50 := by
  rw [List.take_append_eq_append_take, List.take_append_eq_append_take, List.take_take]
  congr 1
  rw [Nat.min_eq_left (by omega)]

lemma insertAll_eq (es : List ResultRecord) :
    ∀ l : List ResultRecord, l.length ≤ 50 → insertAll es l = (es.reverse ++ l).take 50 := by
  induction es with
  | nil =>
    intro l hl
    simp [insertAll, List.take_of_length_le hl]
  | cons e es ih =>
    intro l hl
    show insertAll es (addResultHistory e l) = _
    rw [addResultHistory_eq_take,
        ih ((e :: l).take 50) (by simpa using List.length_take_le 50 (e :: l)),
        take_fifty_append, List.reverse_cons, List.append_assoc]
    rfl

/-- Claim C8: the history is exactly the 50 most recent insertions in
most-recent-first insertion order; in particular 60 insertions into an
empty history leave exactly the last 50, most recent first. -/
theorem resultHistory_bound (es : List ResultRecord) :
    insertAll es [] = es.reverse.take 50 ∧
    (insertAll es []).length = min es.length 50 ∧
    (es.length = 60 → insertAll es [] = (es.drop 10).reverse) := by
  have h1 : insertAll es [] = es.reverse.take 50 := by
    rw [insertAll_eq es [] (by simp)]
    simp
  refine ⟨h1, ?_, ?_⟩
  · rw [h1, List.length_take, List.length_reverse, Nat.min_comm]
  · intro h60
    rw [h1, List.take_reverse, h60]

/-- Record fixture for the C8 witness. -/
def mkRecord (k : Nat) : ResultRecord := ResultRecord.mk none none (Int.ofNat k)

/-- Claim C8 witness: 60 concrete insertions leave the 50 most recent,
most-recent first. -/
theorem resultHistory_bound_witness :
    insertAll ((List.range 60).map (fun k => mkRecord k)) []
        = ((List.range 60).map (fun k => mkRecord k)).reverse.take 50 ∧
    (insertAll ((List.range 60).map (fun k => mkRecord k)) []).length
        = min ((List.range 60).map (fun k => mkRecord k)).length 50 ∧
    (((List.range 60).map (fun k => mkRecord k)).length = 60 ∧
      insertAll ((List.range 60).map (fun k => mkRecord k)) []
        = (((List.range 60).map (fun k => mkRecord k)).drop 10).reverse) := by
  obtain ⟨h1, h2, h3⟩ := resultHistory_bound ((List.range 60).map (fun k => mkRecord k))
  exact ⟨h1, h2, by simp, h3 (by simp)⟩

/-! ## Malformed payloads (C9, C10) -/

/-- Claim C9 counterexample: a `bbp_hex` job wrapper whose `start` is present but
not numeric (`null`, so `parseInt` gives NaN) and whose `count` is the
number 1 is *not* ignored: the snapshot poisons the high-water mark with
NaN and files a NaN digit entry. -/
theorem nonnumeric_start_not_ignored :
    parseIntJs JsVal.null = JsNum.nan ∧
    (updateJobStates
        [Job.mk (some (JobPayload.mk "bbp_hex" (some JsVal.null) (some (JsVal.num 1))))]
        [] initTable).maxDigit = JsNum.nan ∧
    initTable.maxDigit = JsNum.int (-1) ∧
    (updateJobStates
        [Job.mk (some (JobPayload.mk "bbp_hex" (some JsVal.null) (some (JsVal.num 1))))]
        [] initTable).states JsNum.nan = some ⟨DigitState.queue, none⟩ ∧
    initTable.states JsNum.nan = none := by
  refine ⟨rfl, rfl, rfl, ?_, rfl⟩
  rw [updateJobStates_states]
  decide

/-- A job wrapper that the collection loops of `updateJobStates` skip
entirely: payload absent, wrong payload type, `start` or `count`
undefined, or `count` defined but non-numeric (a NaN loop bound runs the
range loop zero times). -/
def inertJob (j : Job) : Prop :=
  j.payload = none ∨ ∃ p, j.payload = some p ∧
    (p.type ≠ "bbp_hex" ∨ p.start_ = none ∨ p.count_ = none ∨
      ∃ cv, p.count_ = some cv ∧ parseIntJs cv = JsNum.nan)

/-- Claim C9 (amended): a job wrapper whose payload is missing, whose payload
type is not `"bbp_hex"`, whose `start` or `count` is undefined, or whose
`count` is defined but non-numeric, contributes no indices and leaves the
snapshot result (entries and high-water mark) unchanged.  (A defined
non-numeric `start` with a positive numeric `count` is *not* inert, per
the counterexample.) -/
theorem inert_job_no_effect (j : Job) (Q I : List Job) (t : Table)
    (hj : inertJob j) :
    jobIndices j = [] ∧
    updateJobStates (j :: Q) I t = updateJobStates Q I t ∧
    updateJobStates Q (j :: I) t = updateJobStates Q I t := by
  have hidx : jobIndices j = [] := by
    rcases hj with hnone | ⟨p, hp, hty | hsn | hcn | ⟨cv, hcv, hnan⟩⟩
    · simp [jobIndices, hnone]
    · rcases hs : p.start_ with _ | sv <;> rcases hc : p.count_ with _ | cv <;>
        simp [jobIndices, hp, hs, hc, hty]
    · simp [jobIndices, hp, hsn]
    · rcases hs : p.start_ with _ | sv <;> simp [jobIndices, hp, hs, hcn]
    · rcases hs : p.start_ with _ | sv <;>
        simp only [jobIndices, hp, hs, hcv, hnan] <;> split <;> rfl
  have hq : jobsIndices (j :: Q) = jobsIndices Q := by
    simp [jobsIndices, hidx]
  have hi : jobsIndices (j :: I) = jobsIndices I := by
    simp [jobsIndices, hidx]
  refine ⟨hidx, ?_, ?_⟩
  · simp only [updateJobStates, hq]
  · simp only [updateJobStates, hi]

/-- Claim C9 witness for the amended theorem: a payload-less wrapper is inert. -/
theorem inert_job_no_effect_witness :
    inertJob (Job.mk none) ∧
    (jobIndices (Job.mk none) = [] ∧
      updateJobStates [Job.mk none] [] initTable = updateJobStates [] [] initTable ∧
      updateJobStates [] [Job.mk none] initTable = updateJobStates [] [] initTable) :=
  ⟨Or.inl rfl, inert_job_no_effect (Job.mk none) [] [] initTable (Or.inl rfl)⟩

/-- Claim C10: a `result` event whose payload misses `hex`, `start` or `count`
(or misses the payload entirely) still prepends a record to the bounded
history but leaves the digit table (entries and high-water mark) alone. -/
theorem malformed_result_keeps_table (data : ResultMsg) (now : Int) (s : DashState)
    (hbad : data.result = none ∨ ∃ r, data.result = some r ∧
      (r.hex = none ∨ r.start_ = none ∨ r.count_ = none)) :
    (addResult data now s).table = s.table ∧
    ∃ entry : ResultRecord, entry.job_id = data.job_id ∧ entry.result = data.result ∧
      (addResult data now s).results = (entry :: s.results).take 50 ∧
      (addResult data now s).results.length = min (s.results.length + 1) 50 := by
  have htab : updateResultState data.result s.table = s.table := by
    rcases hbad with hnone | ⟨r, hr, hfield⟩
    · rw [hnone]; rfl
    · rw [hr]
      rcases hfield with hx | hst | hct
      · rcases hsv : r.start_ with _ | sv <;> rcases hcv : r.count_ with _ | cv <;>
          simp [updateResultState, hx, hsv, hcv]
      · rcases hxv : r.hex with _ | hv <;> rcases hcv : r.count_ with _ | cv <;>
          simp [updateResultState, hxv, hst, hcv]
      · rcases hxv : r.hex with _ | hv <;> rcases hsv : r.start_ with _ | sv <;>
          simp [updateResultState, hxv, hsv, hct]
  refine ⟨htab, ⟨data.job_id, data.result,
      match data.timestamp with
      | some v => if v = 0 then now else v
      | none => now⟩, rfl, rfl, ?_, ?_⟩
  · show addResultHistory _ s.results = _
    rw [addResultHistory_eq_take]
  · show (addResultHistory _ s.results).length = _
    rw [addResultHistory_eq_take, List.length_take, List.length_cons, Nat.min_comm]

/-- Claim C10 witness: a concrete `result` message with no `result` payload,
applied to a fresh dashboard state. -/
theorem malformed_result_keeps_table_witness :
    ((ResultMsg.mk none none none).result = none ∨ ∃ r, (ResultMsg.mk none none none).result = some r ∧
      (r.hex = none ∨ r.start_ = none ∨ r.count_ = none)) ∧
    ((addResult (ResultMsg.mk none none none) 0 (DashState.mk [] initTable)).table = initTable ∧
      ∃ entry : ResultRecord, entry.job_id = none ∧ entry.result = none ∧
        (addResult (ResultMsg.mk none none none) 0 (DashState.mk [] initTable)).results
          = (entry :: []).take 50 ∧
        (addResult (ResultMsg.mk none none none) 0 (DashState.mk [] initTable)).results.length
          = min (0 + 1) 50) :=
  ⟨Or.inl rfl,
    malformed_result_keeps_table (ResultMsg.mk none none none) 0
      (DashState.mk [] initTable) (Or.inl rfl)⟩

/-! ## Result application (C6) -/

lemma resultFold_written (h : String) (s : Int) (t : Table) :
    ∀ (n j : Nat), j < n →
      (((List.range n).foldl (writeResultDigit h (JsNum.int s)) t).states
          (JsNum.int (s + j)))
        = some ⟨DigitState.result, some (h.data.getD j ' ')⟩ := by
  intro n
  induction n generalizing t with
  | zero => intro j hj; omega
  | succ m ih =>
    intro j hj
    rw [List.range_succ, List.foldl_append, List.foldl_cons, List.foldl_nil]
    rcases Nat.lt_succ_iff_lt_or_eq.mp hj with hlt | rfl
    · show (if JsNum.int (s + j) = jsAdd (JsNum.int s) (JsNum.int m) then _ else _) = _
      rw [if_neg (by simp [jsAdd]; omega)]
      exact ih t j hlt
    · show (if JsNum.int (s + j) = jsAdd (JsNum.int s) (JsNum.int j) then _ else _) = _
      rw [if_pos (by simp [jsAdd])]

lemma resultFold_other (h : String) (s : Int) (t : Table) :
    ∀ (n : Nat) (k : JsNum), (∀ j : Nat, j < n → k ≠ JsNum.int (s + j)) →
      (((List.range n).foldl (writeResultDigit h (JsNum.int s)) t).states k) = t.states k := by
  intro n
  induction n generalizing t with
  | zero => intro k _; rfl
  | succ m ih =>
    intro k hk
    rw [List.range_succ, List.foldl_append, List.foldl_cons, List.foldl_nil]
    show (if k = jsAdd (JsNum.int s) (JsNum.int m) then _ else _) = _
    rw [if_neg (by simpa [jsAdd] using hk m (by omega))]
    exact ih t k (fun j hj => hk j (by omega))

lemma resultFold_maxDigit (h : String) (s : Int) (t : Table) :
    ∀ n : Nat, 0 < n →
      (((List.range n).foldl (writeResultDigit h (JsNum.int s)) t).maxDigit)
        = jsMax t.maxDigit (JsNum.int (s + n - 1)) := by
  intro n
  induction n generalizing t with
  | zero => intro hn; omega
  | succ m ih =>
    intro _
    rw [List.range_succ, List.foldl_append, List.foldl_cons, List.foldl_nil]
    show jsMax (((List.range m).foldl (writeResultDigit h (JsNum.int s)) t).maxDigit)
        (jsAdd (JsNum.int s) (JsNum.int m)) = _
    rcases Nat.eq_zero_or_pos m with rfl | hm
    · show jsMax t.maxDigit _ = _
      congr 1
      simp [jsAdd]
    · rw [ih t hm, jsMax_assoc]
      congr 1
      show jsMax (JsNum.int (s + m - 1)) (JsNum.int (s + m)) = _
      simp only [jsMax]
      congr 1
      · rw [max_eq_right (by omega)]
        push_cast
        omega

/-- Claim C6: a result payload with `hex`, (numeric) `start` and `count` present
resolves indices `start + j` for `j < min(count, hex.length)` to
`result(hex[j])` regardless of their previous state, leaves every other
key alone, raises the high-water mark to cover the written range, and is
idempotent. -/
theorem updateResultState_spec (r : ResultPayload) (h : String) (sv cv : JsVal)
    (s c : Int) (t : Table)
    (hhex : r.hex = some h) (hsv : r.start_ = some sv) (hcv : r.count_ = some cv)
    (hs : parseIntJs sv = JsNum.int s) (hc : parseIntJs cv = JsNum.int c) :
    (∀ j : Nat, j < min c.toNat h.length →
      (updateResultState (some r) t).states (JsNum.int (s + j)) =
        some ⟨DigitState.result, some (h.data.getD j ' ')⟩) ∧
    (∀ k : JsNum, (∀ j : Nat, j < min c.toNat h.length → k ≠ JsNum.int (s + j)) →
      (updateResultState (some r) t).states k = t.states k) ∧
    (0 < min c.toNat h.length →
      (updateResultState (some r) t).maxDigit =
        jsMax t.maxDigit (JsNum.int (s + min c.toNat h.length - 1))) ∧
    (min c.toNat h.length = 0 → (updateResultState (some r) t).maxDigit = t.maxDigit) ∧
    updateResultState (some r) (updateResultState (some r) t) = updateResultState (some r) t := by
  by_cases hemp : h = ""
  · have hid : ∀ u : Table, updateResultState (some r) u = u := by
      intro u
      simp [updateResultState, hhex, hsv, hcv, hemp]
    have hzero : min c.toNat h.length = 0 := by
      subst hemp
      simp
    refine ⟨fun j hj => absurd hj (by omega), fun k _ => by rw [hid], ?_, fun _ => by rw [hid], ?_⟩
    · intro hpos
      omega
    · rw [hid, hid]
  · have hunf : ∀ u : Table, updateResultState (some r) u =
        (List.range (min c.toNat h.length)).foldl (writeResultDigit h (JsNum.int s)) u := by
      intro u
      simp [updateResultState, hhex, hsv, hcv, hemp, hs, hc]
    refine ⟨?_, ?_, ?_, ?_, ?_⟩
    · intro j hj
      rw [hunf]
      exact resultFold_written h s t _ j hj
    · intro k hk
      rw [hunf]
      exact resultFold_other h s t _ k hk
    · intro hpos
      rw [hunf]
      exact resultFold_maxDigit h s t _ hpos
    · intro hzero
      rw [hunf, hzero]
      rfl
    · rw [hunf (updateResultState (some r) t), hunf t]
      apply Table.ext
      · funext k
        by_cases hk : ∃ j : Nat, j < min c.toNat h.length ∧ k = JsNum.int (s + j)
        · obtain ⟨j, hj, rfl⟩ := hk
          rw [resultFold_written h s _ _ j hj, resultFold_written h s t _ j hj]
        · push_neg at hk
          rw [resultFold_other h s _ _ k (fun j hj => hk j hj),
              resultFold_other h s t _ k (fun j hj => hk j hj)]
      · rcases Nat.eq_zero_or_pos (min c.toNat h.length) with hz | hpos
        · rw [hz]
          rfl
        · rw [resultFold_maxDigit h s _ _ hpos, resultFold_maxDigit h s t _ hpos,
              jsMax_assoc, jsMax_self]

/-- Result payload fixture for the C6 witness. -/
def okResult : ResultPayload :=
  ResultPayload.mk (some "24") (some (JsVal.num 0)) (some (JsVal.num 2))

/-- Claim C6 witness: result `{hex: "24", start: 0, count: 2}` on a fresh table. -/
theorem updateResultState_spec_witness :
    okResult.hex = some "24" ∧ okResult.start_ = some (JsVal.num 0) ∧
    okResult.count_ = some (JsVal.num 2) ∧
    parseIntJs (JsVal.num 0) = JsNum.int 0 ∧ parseIntJs (JsVal.num 2) = JsNum.int 2 ∧
    ((∀ j : Nat, j < min (2 : Int).toNat ("24" : String).length →
      (updateResultState (some okResult) initTable).states (JsNum.int (0 + j)) =
        some ⟨DigitState.result, some (("24" : String).data.getD j ' ')⟩) ∧
    (∀ k : JsNum, (∀ j : Nat, j < min (2 : Int).toNat ("24" : String).length →
        k ≠ JsNum.int (0 + j)) →
      (updateResultState (some okResult) initTable).states k = initTable.states k) ∧
    (0 < min (2 : Int).toNat ("24" : String).length →
      (updateResultState (some okResult) initTable).maxDigit =
        jsMax initTable.maxDigit (JsNum.int (0 + min (2 : Int).toNat ("24" : String).length - 1))) ∧
    (min (2 : Int).toNat ("24" : String).length = 0 →
      (updateResultState (some okResult) initTable).maxDigit = initTable.maxDigit) ∧
    updateResultState (some okResult) (updateResultState (some okResult) initTable) =
      updateResultState (some okResult) initTable) :=
  ⟨rfl, rfl, rfl, rfl, rfl,
    updateResultState_spec okResult "24" (JsVal.num 0) (JsVal.num 2) 0 2 initTable
      rfl rfl rfl rfl rfl⟩

/-! ## Contiguous resolved prefix (C3) -/

lemma collectRun_spec (st : JsNum → Option DigitEntry) :
    ∀ (fuel i : Nat),
      ((collectRun st fuel i).length ≤ fuel) ∧
      (∀ j (hj : j < (collectRun st fuel i).length),
        ∃ e, st (JsNum.int (i + j)) = some e ∧ e.state = DigitState.result ∧
          e.value = some ((collectRun st fuel i).get ⟨j, hj⟩)) ∧
      ((collectRun st fuel i).length < fuel →
        ∀ e, st (JsNum.int (i + (collectRun st fuel i).length)) = some e →
          ¬(e.state = DigitState.result ∧ e.value.isSome = true)) := by
  intro fuel
  induction fuel with
  | zero =>
    intro i
    exact ⟨Nat.le_refl 0, fun j hj => absurd hj (by simp [collectRun]),
      fun h => absurd h (by simp)⟩
  | succ fuel ih =>
    intro i
    rcases hst : st (JsNum.int i) with _ | e
    · have hrun : collectRun st (fuel + 1) i = [] := by
        simp [collectRun, hst]
      refine ⟨by rw [hrun]; simp, fun j hj => absurd hj (by rw [hrun]; simp), ?_⟩
      intro _ e2 he2
      rw [hrun] at he2
      simp only [List.length_nil, Nat.cast_zero, add_zero] at he2
      rw [hst] at he2
      exact absurd he2 (by simp)
    · by_cases hgood : e.state = DigitState.result ∧ e.value.isSome = true
      · obtain ⟨hres, hsome⟩ := hgood
        obtain ⟨c, hval⟩ := Option.isSome_iff_exists.mp hsome
        have hrun : collectRun st (fuel + 1) i = c :: collectRun st fuel (i + 1) := by
          simp [collectRun, hst, hres, hval]
        obtain ⟨ihlen, ihdig, ihstop⟩ := ih (i + 1)
        have hlen : (collectRun st (fuel + 1) i).length
            = (collectRun st fuel (i + 1)).length + 1 := by
          rw [hrun]
          simp
        refine ⟨by omega, ?_, ?_⟩
        · intro j hj
          rcases j with _ | j
          · refine ⟨e, by simpa using hst, hres, ?_⟩
            rw [hval, List.get_of_eq hrun]
            rfl
          · have hj2 : j < (collectRun st fuel (i + 1)).length := by omega
            obtain ⟨e2, he2, hr2, hv2⟩ := ihdig j hj2
            refine ⟨e2, ?_, hr2, ?_⟩
            · rw [← he2]
              congr 2
              push_cast
              omega
            · rw [hv2, List.get_of_eq hrun]
              congr 1
        · intro hlt e2 he2
          have hlt2 : (collectRun st fuel (i + 1)).length < fuel := by omega
          have heq : ((i : Int) + ((collectRun st (fuel + 1) i).length : Int))
              = ((i + 1 : Nat) : Int) + ((collectRun st fuel (i + 1)).length : Int) := by
            rw [hlen]
            push_cast
            omega
          rw [heq] at he2
          exact ihstop hlt2 e2 he2
      · have hrun : collectRun st (fuel + 1) i = [] := by
          rcases hres : e.state with _ | _ | _
          · simp [collectRun, hst, hres]
          · simp [collectRun, hst, hres]
          · rcases hval : e.value with _ | c
            · simp [collectRun, hst, hres, hval]
            · exact absurd ⟨hres, by simp [hval]⟩ hgood
        refine ⟨by rw [hrun]; simp, fun j hj => absurd hj (by rw [hrun]; simp), ?_⟩
        intro _ e2 he2
        rw [hrun] at he2
        simp only [List.length_nil, Nat.cast_zero, add_zero] at he2
        rw [hst] at he2
        injection he2 with he2
        rw [← he2]
        exact hgood

/-- A table whose resolved entries are shaped as the program produces
them: the high-water mark is an integer, and every resolved entry at a
digit index carries a value and lies at or below the high-water mark. -/
def TableWF (t : Table) : Prop :=
  ∃ m : Int, t.maxDigit = JsNum.int m ∧
    ∀ (i : Nat) (e : DigitEntry), t.states (JsNum.int i) = some e →
      e.state = DigitState.result → e.value.isSome = true ∧ (i : Int) ≤ m

/-- Claim C3: on any well-formed table, `getAllHexDigits` returns exactly the
stored values of indices `0..k-1` where `k` is the first index not in
state `result`; no index at or past `k` contributes. -/
theorem contiguous_result_run (t : Table) (hwf : TableWF t) :
    (∀ j (hj : j < (getAllHexDigits t).data.length),
      ∃ e, t.states (JsNum.int j) = some e ∧ e.state = DigitState.result ∧
        e.value = some ((getAllHexDigits t).data.get ⟨j, hj⟩)) ∧
    (∀ e, t.states (JsNum.int (getAllHexDigits t).data.length) = some e →
      e.state ≠ DigitState.result) := by
  obtain ⟨m, hm, hkeys⟩ := hwf
  rcases le_or_lt 0 m with hpos | hneg
  · have hget : (getAllHexDigits t).data = collectRun t.states (m.toNat + 1) 0 := by
      simp [getAllHexDigits, hm, hpos]
    obtain ⟨hlen, hdig, hstop⟩ := collectRun_spec t.states (m.toNat + 1) 0
    have hL : (getAllHexDigits t).data.length
        = (collectRun t.states (m.toNat + 1) 0).length := by rw [hget]
    constructor
    · intro j hj
      have hj2 : j < (collectRun t.states (m.toNat + 1) 0).length := by omega
      obtain ⟨e, he, hr, hv⟩ := hdig j hj2
      refine ⟨e, by simpa using he, hr, ?_⟩
      rw [hv, List.get_of_eq hget]
    · intro e he hres
      rw [hL] at he
      rcases lt_or_eq_of_le hlen with hlt | heqf
      · exact hstop hlt e (by simpa using he)
          ⟨hres, (hkeys _ e he hres).1⟩
      · have hbig := (hkeys _ e he hres).2
        rw [heqf] at hbig
        push_cast at hbig
        omega
  · have hget : (getAllHexDigits t).data = [] := by
      simp [getAllHexDigits, hm, not_le.mpr hneg]
    constructor
    · intro j hj
      rw [hget] at hj
      simp at hj
    · intro e he hres
      rw [hget] at he
      simp only [List.length_nil, Nat.cast_zero] at he
      have := (hkeys 0 e (by simpa using he) hres).2
      omega

/-- Claim C3 witness: the concrete table with index 0 resolved to '7'. -/
theorem contiguous_result_run_witness :
    TableWF resolvedTable ∧
    ((∀ j (hj : j < (getAllHexDigits resolvedTable).data.length),
      ∃ e, resolvedTable.states (JsNum.int j) = some e ∧ e.state = DigitState.result ∧
        e.value = some ((getAllHexDigits resolvedTable).data.get ⟨j, hj⟩)) ∧
    (∀ e, resolvedTable.states (JsNum.int (getAllHexDigits resolvedTable).data.length) = some e →
      e.state ≠ DigitState.result)) := by
  have hwf : TableWF resolvedTable := by
    refine ⟨0, rfl, ?_⟩
    intro i e he _
    by_cases hi : (i : Int) = 0
    · simp only [resolvedTable, hi, if_true] at he
      injection he with he
      rw [← he]
      exact ⟨rfl, by omega⟩
    · simp [resolvedTable, hi] at he
  exact ⟨hwf, contiguous_result_run resolvedTable hwf⟩

/-! ## Exact decimal conversion (C2) -/

lemma hexCharVal_lt (c : Char) (v : Nat) (h : hexCharVal c = some v) : v < 16 := by
  simp only [hexCharVal] at h
  split_ifs at h <;> (injection h with h; omega)

lemma hexAccum_foldl (l : List Char) :
    ∀ a : Nat, (∀ c ∈ l, (hexCharVal c).isSome = true) →
      ∃ n, l.foldl hexAccum (some a) = some n ∧ n < (a + 1) * 16 ^ l.length := by
  induction l with
  | nil =>
    intro a _
    refine ⟨a, rfl, ?_⟩
    simp only [List.length_nil, pow_zero, mul_one]
    exact Nat.lt_succ_self a
  | cons c l ih =>
    intro a hall
    obtain ⟨v, hv⟩ := Option.isSome_iff_exists.mp (hall c (by simp))
    have hstep : hexAccum (some a) c = some (a * 16 + v) := by
      unfold hexAccum
      rw [hv]
    rw [List.foldl_cons, hstep]
    obtain ⟨n, hn, hlt⟩ := ih (a * 16 + v) (fun d hd => hall d (by simp [hd]))
    refine ⟨n, hn, lt_of_lt_of_le hlt ?_⟩
    have hv16 : v < 16 := hexCharVal_lt c v hv
    calc (a * 16 + v + 1) * 16 ^ l.length
        ≤ ((a + 1) * 16) * 16 ^ l.length :=
          Nat.mul_le_mul_right _ (by omega)
      _ = (a + 1) * 16 ^ (c :: l).length := by
          rw [List.length_cons, pow_succ]
          ring

lemma hexStrVal_some (s : String) (hhex : ∀ c ∈ s.data, (hexCharVal c).isSome = true) :
    ∃ n, hexStrVal s = some n ∧ n < 16 ^ s.length := by
  obtain ⟨n, hn, hlt⟩ := hexAccum_foldl s.data 0 hhex
  refine ⟨n, hn, ?_⟩
  have hlen : s.data.length = s.length := rfl
  rw [hlen] at hlt
  simpa using hlt

lemma extractDigits_spec (den : Nat) (hden : 0 < den) :
    ∀ (fuel n : Nat), n < den →
      ((extractDigits den n fuel).length ≤ fuel) ∧
      (0 < fuel → 0 < (extractDigits den n fuel).length) ∧
      (∀ j (hj : j < (extractDigits den n fuel).length),
        (extractDigits den n fuel).get ⟨j, hj⟩ = n * 10 ^ (j + 1) / den % 10) ∧
      ((extractDigits den n fuel).length < fuel →
        n * 10 ^ (extractDigits den n fuel).length % den = 0) ∧
      (∀ j, j + 1 < (extractDigits den n fuel).length → n * 10 ^ (j + 1) % den ≠ 0) := by
  intro fuel
  induction fuel with
  | zero =>
    intro n _
    refine ⟨by simp [extractDigits], by omega, ?_, by simp [extractDigits], ?_⟩
    · intro j hj
      simp [extractDigits] at hj
    · intro j hj
      simp [extractDigits] at hj
  | succ fuel ih =>
    intro n hn
    have hd10 : n * 10 / den < 10 := by
      rw [Nat.div_lt_iff_lt_mul hden]
      omega
    have hdm : n * 10 / den % 10 = n * 10 / den := Nat.mod_eq_of_lt hd10
    have hdiv : den * (n * 10 / den) + n * 10 % den = n * 10 := Nat.div_add_mod (n * 10) den
    have hsplit : ∀ k : Nat, n * 10 ^ (k + 1 + 1)
        = den * (n * 10 / den * 10 ^ (k + 1)) + (n * 10 % den) * 10 ^ (k + 1) := by
      intro k
      calc n * 10 ^ (k + 1 + 1) = n * 10 * 10 ^ (k + 1) := by ring
        _ = (den * (n * 10 / den) + n * 10 % den) * 10 ^ (k + 1) := by rw [hdiv]
        _ = den * (n * 10 / den * 10 ^ (k + 1)) + (n * 10 % den) * 10 ^ (k + 1) := by ring
    have hkeyd : ∀ k : Nat, n * 10 ^ (k + 1 + 1) / den
        = n * 10 / den * 10 ^ (k + 1) + (n * 10 % den) * 10 ^ (k + 1) / den := by
      intro k
      rw [hsplit k, Nat.mul_add_div hden]
    have hkeym : ∀ k : Nat, n * 10 ^ (k + 1 + 1) % den
        = (n * 10 % den) * 10 ^ (k + 1) % den := by
      intro k
      rw [hsplit k, Nat.mul_add_mod]
    by_cases hr : n * 10 % den = 0
    · have hrun : extractDigits den n (fuel + 1) = [n * 10 / den] := by
        simp [extractDigits, hr]
      have hL : (extractDigits den n (fuel + 1)).length = 1 := by
        rw [hrun]
        rfl
      refine ⟨by omega, by omega, ?_, ?_, ?_⟩
      · intro j hj
        have hj0 : j = 0 := by omega
        subst hj0
        have hget : (extractDigits den n (fuel + 1)).get ⟨0, hj⟩ = n * 10 / den := by
          rw [List.get_of_eq hrun]
          rfl
        rw [hget, pow_one, hdm]
      · intro _
        rw [hL, pow_one]
        exact hr
      · intro j hj
        rw [hL] at hj
        omega
    · have hrun : extractDigits den n (fuel + 1)
          = n * 10 / den :: extractDigits den (n * 10 % den) fuel := by
        simp [extractDigits, hr]
      obtain ⟨ihlen, ihpos, ihdig, ihstop, ihnz⟩ :=
        ih (n * 10 % den) (Nat.mod_lt _ hden)
      have hlen : (extractDigits den n (fuel + 1)).length
          = (extractDigits den (n * 10 % den) fuel).length + 1 := by
        rw [hrun]
        rfl
      refine ⟨by omega, by omega, ?_, ?_, ?_⟩
      · intro j hj
        rcases j with _ | j
        · have hget : (extractDigits den n (fuel + 1)).get ⟨0, hj⟩ = n * 10 / den := by
            rw [List.get_of_eq hrun]
            rfl
          rw [hget, pow_one, hdm]
        · have hj2 : j < (extractDigits den (n * 10 % den) fuel).length := by omega
          have hget : (extractDigits den n (fuel + 1)).get ⟨j + 1, hj⟩
              = (extractDigits den (n * 10 % den) fuel).get ⟨j, hj2⟩ := by
            rw [List.get_of_eq hrun]
            rfl
          rw [hget, ihdig j hj2, hkeyd j,
              show n * 10 / den * 10 ^ (j + 1) = 10 * (n * 10 / den * 10 ^ j) by ring,
              Nat.mul_add_mod]
      · intro hlt
        have hlt2 : (extractDigits den (n * 10 % den) fuel).length < fuel := by omega
        have h0 := ihstop hlt2
        rcases Nat.eq_zero_or_pos (extractDigits den (n * 10 % den) fuel).length with hz | hp
        · rw [hz, pow_zero, mul_one, Nat.mod_eq_of_lt (Nat.mod_lt _ hden)] at h0
          exact absurd h0 hr
        · obtain ⟨lm, hlm⟩ := Nat.exists_eq_add_of_le hp
          rw [hlm] at h0
          rw [hlen, hlm, show 1 + lm + 1 = lm + 1 + 1 by omega, hkeym lm]
          rw [show 1 + lm = lm + 1 by omega] at h0
          exact h0
      · intro j hj
        rcases j with _ | j
        · rw [pow_one]
          exact hr
        · have hj2 : j + 1 < (extractDigits den (n * 10 % den) fuel).length := by omega
          rw [hkeym j]
          exact ihnz j hj2

/-- Claim C2: for a hex-digit string `h` of length `L` and `M ≥ 1`,
`hexFractionToDecimal` returns `"3."` when `L = 0`, and otherwise `"3."`
followed by the decimal digits of the rational `n / 16^L` (with `n` the
base-16 value of `h`): digit `j` is `n * 10^(j+1) / 16^L mod 10`, at most
`min L M` digits are produced, at least one is, the loop stops before
`min L M` exactly when the remainder has become zero, and in particular
`"8"` yields `"3.5"`. -/
theorem hexFractionToDecimal_exact (h : String) (M : Nat)
    (hhex : ∀ c ∈ h.data, (hexCharVal c).isSome = true) (hM : 1 ≤ M) :
    (h.length = 0 → hexFractionToDecimal h M = some "3.") ∧
    (h.length ≠ 0 → ∃ n, hexStrVal h = some n ∧ n < 16 ^ h.length ∧
      hexFractionToDecimal h M = some ((extractDigits (16 ^ h.length) n (min h.length M)).foldl
        (fun acc d => acc ++ toString d) "3.") ∧
      (∀ j (hj : j < (extractDigits (16 ^ h.length) n (min h.length M)).length),
        (extractDigits (16 ^ h.length) n (min h.length M)).get ⟨j, hj⟩
          = n * 10 ^ (j + 1) / 16 ^ h.length % 10) ∧
      0 < (extractDigits (16 ^ h.length) n (min h.length M)).length ∧
      (extractDigits (16 ^ h.length) n (min h.length M)).length ≤ min h.length M ∧
      ((extractDigits (16 ^ h.length) n (min h.length M)).length < min h.length M →
        n * 10 ^ (extractDigits (16 ^ h.length) n (min h.length M)).length % 16 ^ h.length = 0) ∧
      (∀ j, j + 1 < (extractDigits (16 ^ h.length) n (min h.length M)).length →
        n * 10 ^ (j + 1) % 16 ^ h.length ≠ 0)) ∧
    hexFractionToDecimal "8" 1000 = some "3.5" := by
  refine ⟨?_, ?_, ?_⟩
  · intro h0
    unfold hexFractionToDecimal
    rw [if_pos h0]
  · intro hne
    obtain ⟨n, hn, hlt⟩ := hexStrVal_some h hhex
    have hden : 0 < 16 ^ h.length := by positivity
    obtain ⟨hlen, hpos, hdig, hstop, hnz⟩ :=
      extractDigits_spec (16 ^ h.length) hden (min h.length M) n hlt
    refine ⟨n, hn, hlt, ?_, hdig, hpos (by omega), hlen, hstop, hnz⟩
    unfold hexFractionToDecimal
    rw [if_neg hne, hn]
  · decide

/-- Claim C2 witness at the concrete input `"8"` with `M = 1000`. -/
theorem hexFractionToDecimal_exact_witness :
    (∀ c ∈ ("8" : String).data, (hexCharVal c).isSome = true) ∧ 1 ≤ 1000 ∧
    ((("8" : String).length = 0 → hexFractionToDecimal "8" 1000 = some "3.") ∧
    (("8" : String).length ≠ 0 → ∃ n, hexStrVal "8" = some n ∧ n < 16 ^ ("8" : String).length ∧
      hexFractionToDecimal "8" 1000 =
        some ((extractDigits (16 ^ ("8" : String).length) n
          (min ("8" : String).length 1000)).foldl (fun acc d => acc ++ toString d) "3.") ∧
      (∀ j (hj : j < (extractDigits (16 ^ ("8" : String).length) n
          (min ("8" : String).length 1000)).length),
        (extractDigits (16 ^ ("8" : String).length) n
          (min ("8" : String).length 1000)).get ⟨j, hj⟩
          = n * 10 ^ (j + 1) / 16 ^ ("8" : String).length % 10) ∧
      0 < (extractDigits (16 ^ ("8" : String).length) n (min ("8" : String).length 1000)).length ∧
      (extractDigits (16 ^ ("8" : String).length) n
        (min ("8" : String).length 1000)).length ≤ min ("8" : String).length 1000 ∧
      ((extractDigits (16 ^ ("8" : String).length) n
          (min ("8" : String).length 1000)).length < min ("8" : String).length 1000 →
        n * 10 ^ (extractDigits (16 ^ ("8" : String).length) n
          (min ("8" : String).length 1000)).length % 16 ^ ("8" : String).length = 0) ∧
      (∀ j, j + 1 < (extractDigits (16 ^ ("8" : String).length) n
          (min ("8" : String).length 1000)).length →
        n * 10 ^ (j + 1) % 16 ^ ("8" : String).length ≠ 0)) ∧
    hexFractionToDecimal "8" 1000 = some "3.5") :=
  ⟨by decide, by omega, hexFractionToDecimal_exact "8" 1000 (by decide) (by omega)⟩
